import Mathlib

/-!
Verification of the persistent balanced search tree in `src/st.py`.

The source represents trees as an abstract class with two variants: the
singleton `Empty` tree and frozen (immutable) `InnerNode` dataclasses holding
a value, two children, and a height cached at construction time as
`max(left.height, right.height) + 1`.  We embed trees shallowly as an
inductive type over `Int` values; the cached height field is represented by
the recursive `height` function, which by construction always equals the
value the Python `__post_init__` stores.
-/

namespace ST

/-- Shallow embedding of the source's `Tree`: the `Empty` singleton or an
`InnerNode(value, left, right)`.  The cached `_height` field is recomputed by
`height` below, which agrees with the source's construction rule. -/
inductive Tree where
  | empty : Tree
  | node (value : Int) (left right : Tree) : Tree
deriving DecidableEq

/-- Height of a tree: the source caches `max(left.height, right.height) + 1`
on inner nodes and returns `0` for the empty tree. -/
def height : Tree → Nat
  | .empty => 0
  | .node _ l r => max (height l) (height r) + 1

/-- Balance factor, `Tree.bf` in the source: `right.height - left.height`.
On the empty tree both children are the empty tree again, so the factor is
`0`. -/
def bf : Tree → Int
  | .empty => 0
  | .node _ l r => (height r : Int) - height l

/-- The `value` property.  On `Empty` the source raises
`AttributeError("No value on an empty tree")`; we model the fault as
`none`. -/
def value : Tree → Option Int
  | .empty => none
  | .node v _ _ => some v

/-- Source `rot_left(n)`:
`InnerNode(n.right.value, InnerNode(n.value, n.left, n.right.left), n.right.right)`.
It is only defined when `n` and `n.right` are inner nodes; on any other input
the source raises `AttributeError` before allocating, which the fallback arm
marks by returning the input unchanged (the fallback is unreachable from
`balance`). -/
def rot_left : Tree → Tree
  | .node v l (.node rv rl rr) => .node rv (.node v l rl) rr
  | t => t

/-- Source `rot_right(n)`:
`InnerNode(n.left.value, n.left.left, InnerNode(n.value, n.left.right, n.right))`.
Defined when `n` and `n.left` are inner nodes; otherwise the source raises
`AttributeError` (fallback arm, unreachable from `balance`). -/
def rot_right : Tree → Tree
  | .node v (.node lv ll lr) r => .node lv ll (.node v lr r)
  | t => t

/-- Source `balance(n)`: single/double rotations restoring the AVL invariant.
On the empty tree every branch condition is false (`bf Empty = 0`), so the
source returns its argument, matching the first arm. -/
def balance : Tree → Tree
  | .empty => .empty
  | .node v l r =>
    if bf (.node v l r) ≤ -2 then
      if 0 < bf l then rot_right (.node v (rot_left l) r)
      else rot_right (.node v l r)
    else if 2 ≤ bf (.node v l r) then
      if bf r < 0 then rot_left (.node v l (rot_right r))
      else rot_left (.node v l r)
    else .node v l r

/-- Source `contains(t, val)`: the iterative loop is rendered as structural
recursion; each iteration either returns or moves to one child. -/
def contains : Tree → Int → Bool
  | .empty, _ => false
  | .node v l r, val =>
    if v = val then true
    else if val < v then contains l val
    else contains r val

/-- Source `insert(t, val)`.  Note the source compares `t.value < val` first
(recurse right), then `t.value > val` (recurse left), else returns `t`
itself unchanged. -/
def insert (t : Tree) (val : Int) : Tree :=
  match t with
  | .empty => .node val .empty .empty
  | .node v l r =>
    if v < val then balance (.node v l (insert r val))
    else if val < v then balance (.node v (insert l val) r)
    else .node v l r

/-- The loop of source `rightmost(t)` after the `assert t is not Empty`
guard, parameterised by the value seen so far: follow right children until
the right child is empty. -/
def rightmostD (v : Int) : Tree → Int
  | .empty => v
  | .node rv _ rr => rightmostD rv rr

/-- Source `rightmost(t)`: asserts `t is not Empty` (modelled by `none`),
then walks to the rightmost inner node and returns its value. -/
def rightmost : Tree → Option Int
  | .empty => none
  | .node v _ r => some (rightmostD v r)

/-- Source `remove(t, val)`.  The two-child case calls
`rightmost(t.left)`, which cannot fault there because the left child was
just checked to be non-empty; `rightmostD lv lr` is exactly
`rightmost (.node lv ll lr)` in that branch. -/
def remove : Tree → Int → Tree
  | .empty, _ => .empty
  | .node v l r, val =>
    if val < v then balance (.node v (remove l val) r)
    else if v < val then balance (.node v l (remove r val))
    else
      match l, r with
      | .empty, _ => r
      | _, .empty => l
      | .node lv ll lr, _ =>
        balance (.node (rightmostD lv lr)
          (remove (.node lv ll lr) (rightmostD lv lr)) r)

/-- Fault-propagating version of `remove`: the source's internal call to
`rightmost` asserts its argument is non-empty, and a failure of that
assertion would abort the whole operation.  `removeE` returns `none`
whenever that (unreachable) fault would fire, so
`removeE t val = some (remove t val)` states that `remove` never faults. -/
def removeE : Tree → Int → Option Tree
  | .empty, _ => some .empty
  | .node v l r, val =>
    if val < v then (removeE l val).map fun l2 => balance (.node v l2 r)
    else if v < val then (removeE r val).map fun r2 => balance (.node v l r2)
    else
      match l, r with
      | .empty, _ => some r
      | _, .empty => some l
      | .node lv ll lr, _ =>
        match rightmost (.node lv ll lr) with
        | none => none
        | some x =>
          (removeE (.node lv ll lr) x).map fun l2 => balance (.node x l2 r)

/-!
Instrumented variants.  The Python `InnerNode` dataclass allocates a fresh,
identity-distinct object on every `InnerNode(...)` call, so node identity of
a result is captured shallowly by counting constructor calls: an operation
returns "the very same nodes" as its input exactly when it performs zero
`InnerNode` allocations.  Each instrumented function returns
`(result, allocations, rotations)` where `rotations` counts calls to
`rot_left`/`rot_right` and `allocations` counts `InnerNode(...)` calls; the
tree component always equals the uninstrumented function (proved below).
-/

/-- Counting version of `rot_left`: one rotation, two `InnerNode` calls.
The fallback arm is where the source faults before allocating. -/
def rot_leftC : Tree → Tree × Nat × Nat
  | .node v l (.node rv rl rr) => (.node rv (.node v l rl) rr, 2, 1)
  | t => (t, 0, 1)

/-- Counting version of `rot_right`: one rotation, two `InnerNode` calls. -/
def rot_rightC : Tree → Tree × Nat × Nat
  | .node v (.node lv ll lr) r => (.node lv ll (.node v lr r), 2, 1)
  | t => (t, 0, 1)

/-- Counting version of `balance`: the double-rotation branches build one
intermediate `InnerNode` around the inner rotation before the outer one. -/
def balanceC : Tree → Tree × Nat × Nat
  | .empty => (.empty, 0, 0)
  | .node v l r =>
    if bf (.node v l r) ≤ -2 then
      if 0 < bf l then
        let p := rot_leftC l
        let q := rot_rightC (.node v p.1 r)
        (q.1, p.2.1 + 1 + q.2.1, p.2.2 + q.2.2)
      else rot_rightC (.node v l r)
    else if 2 ≤ bf (.node v l r) then
      if bf r < 0 then
        let p := rot_rightC r
        let q := rot_leftC (.node v l p.1)
        (q.1, p.2.1 + 1 + q.2.1, p.2.2 + q.2.2)
      else rot_leftC (.node v l r)
    else (.node v l r, 0, 0)

/-- Counting version of `insert`: the base case allocates one node; each
recursive step allocates the rebuilt node plus whatever `balance` allocates;
the duplicate case returns the input with zero allocations. -/
def insertC : Tree → Int → Tree × Nat × Nat
  | .empty, val => (.node val .empty .empty, 1, 0)
  | .node v l r, val =>
    if v < val then
      let p := insertC r val
      let q := balanceC (.node v l p.1)
      (q.1, p.2.1 + 1 + q.2.1, p.2.2 + q.2.2)
    else if val < v then
      let p := insertC l val
      let q := balanceC (.node v p.1 r)
      (q.1, p.2.1 + 1 + q.2.1, p.2.2 + q.2.2)
    else (.node v l r, 0, 0)

/-- Counting version of `remove`. -/
def removeC : Tree → Int → Tree × Nat × Nat
  | .empty, _ => (.empty, 0, 0)
  | .node v l r, val =>
    if val < v then
      let p := removeC l val
      let q := balanceC (.node v p.1 r)
      (q.1, p.2.1 + 1 + q.2.1, p.2.2 + q.2.2)
    else if v < val then
      let p := removeC r val
      let q := balanceC (.node v l p.1)
      (q.1, p.2.1 + 1 + q.2.1, p.2.2 + q.2.2)
    else
      match l, r with
      | .empty, _ => (r, 0, 0)
      | _, .empty => (l, 0, 0)
      | .node lv ll lr, _ =>
        let p := removeC (.node lv ll lr) (rightmostD lv lr)
        let q := balanceC (.node (rightmostD lv lr) p.1 r)
        (q.1, p.2.1 + 1 + q.2.1, p.2.2 + q.2.2)

/-!
Specification predicates over the embedded trees.
-/

/-- In-order traversal of the values of a tree. -/
def inorder : Tree → List Int
  | .empty => []
  | .node v l r => inorder l ++ v :: inorder r

/-- Exhaustive membership test (unlike `contains`, it searches both
subtrees, so it is the ground truth of which values occur in a tree). -/
def memb : Tree → Int → Bool
  | .empty, _ => false
  | .node v l r, y => decide (v = y) || memb l y || memb r y

/-- The predicate `p` holds at every value stored in the tree. -/
def ForallT (p : Int → Prop) : Tree → Prop
  | .empty => True
  | .node v l r => p v ∧ ForallT p l ∧ ForallT p r

/-- The binary-search-tree order invariant: at every inner node all values
of the left subtree are smaller and all values of the right subtree are
larger than the node's value. -/
def BST : Tree → Prop
  | .empty => True
  | .node v l r => ForallT (· < v) l ∧ ForallT (v < ·) r ∧ BST l ∧ BST r

/-- The AVL balance invariant: at every inner node the balance factor
`height right - height left` lies in the set of integers from -1 to 1. -/
def Avl : Tree → Prop
  | .empty => True
  | .node _ l r =>
    (-1 ≤ (height r : Int) - height l ∧ (height r : Int) - height l ≤ 1) ∧
    Avl l ∧ Avl r

/-!
Operation histories: trees reachable from the empty tree by sequences of
`insert` and `remove` calls, together with the declarative membership model
tracking which values have been inserted and not removed afterwards.
-/

/-- A public mutating operation of the structure. -/
inductive Op where
  | ins (v : Int) : Op
  | del (v : Int) : Op
deriving DecidableEq

/-- Apply one operation. -/
def applyOp (t : Tree) : Op → Tree
  | .ins v => insert t v
  | .del v => remove t v

/-- Apply a sequence of operations from left to right. -/
def applyOps : Tree → List Op → Tree
  | t, [] => t
  | t, op :: ops => applyOps (applyOp t op) ops

/-- Reference membership model: starting from membership status `b` of the
value `v`, replay a history; an insert of `v` sets the status, a remove of
`v` clears it, operations on other values leave it unchanged. -/
def memAfter (b : Bool) : List Op → Int → Bool
  | [], _ => b
  | .ins u :: ops, v => memAfter (b || decide (v = u)) ops v
  | .del u :: ops, v => memAfter (b && !decide (v = u)) ops v

/-!
Basic unfolding lemmas.
-/

theorem bf_node (v : Int) (l r : Tree) :
    bf (.node v l r) = (height r : Int) - height l := rfl

theorem height_node (v : Int) (l r : Tree) :
    height (.node v l r) = max (height l) (height r) + 1 := rfl

/-- When the balance factor is already in range, `balance` returns its input
unchanged. -/
theorem balance_id (v : Int) (l r : Tree)
    (h1 : -2 < (height r : Int) - height l)
    (h2 : (height r : Int) - height l < 2) :
    balance (.node v l r) = .node v l r := by
  simp only [balance, bf_node]
  rw [if_neg (by omega), if_neg (by omega)]

theorem insert_lt (v val : Int) (l r : Tree) (h : v < val) :
    insert (.node v l r) val = balance (.node v l (insert r val)) := by
  simp [insert, h]

theorem insert_gt (v val : Int) (l r : Tree) (h1 : ¬ v < val) (h2 : val < v) :
    insert (.node v l r) val = balance (.node v (insert l val) r) := by
  simp [insert, h1, h2]

theorem insert_eq_self (v val : Int) (l r : Tree) (h1 : ¬ v < val)
    (h2 : ¬ val < v) : insert (.node v l r) val = .node v l r := by
  simp [insert, h1, h2]

theorem remove_lt (v val : Int) (l r : Tree) (h : val < v) :
    remove (.node v l r) val = balance (.node v (remove l val) r) := by
  rw [remove.eq_def]
  simp [h]

theorem remove_gt (v val : Int) (l r : Tree) (h1 : ¬ val < v) (h2 : v < val) :
    remove (.node v l r) val = balance (.node v l (remove r val)) := by
  rw [remove.eq_def]
  simp [h1, h2]

theorem remove_empty_left (v val : Int) (r : Tree) (h1 : ¬ val < v)
    (h2 : ¬ v < val) : remove (.node v .empty r) val = r := by
  simp [remove, h1, h2]

theorem remove_empty_right (v val lv : Int) (ll lr : Tree) (h1 : ¬ val < v)
    (h2 : ¬ v < val) :
    remove (.node v (.node lv ll lr) .empty) val = .node lv ll lr := by
  simp [remove, h1, h2]

theorem remove_two (v val lv rv : Int) (ll lr rl rr : Tree) (h1 : ¬ val < v)
    (h2 : ¬ v < val) :
    remove (.node v (.node lv ll lr) (.node rv rl rr)) val =
      balance (.node (rightmostD lv lr)
        (remove (.node lv ll lr) (rightmostD lv lr)) (.node rv rl rr)) := by
  simp [remove, h1, h2]

/-!
Membership and `ForallT` are preserved by rotations and `balance`.
-/

theorem memb_rot_left (t : Tree) (y : Int) : memb (rot_left t) y = memb t y := by
  cases t with
  | empty => rfl
  | node v l r =>
    cases r with
    | empty => rfl
    | node rv rl rr =>
      simp [rot_left, memb, Bool.or_assoc, Bool.or_comm, Bool.or_left_comm]

theorem memb_rot_right (t : Tree) (y : Int) :
    memb (rot_right t) y = memb t y := by
  cases t with
  | empty => rfl
  | node v l r =>
    cases l with
    | empty => rfl
    | node lv ll lr =>
      simp [rot_right, memb, Bool.or_assoc, Bool.or_comm, Bool.or_left_comm]

theorem memb_balance (t : Tree) (y : Int) : memb (balance t) y = memb t y := by
  cases t with
  | empty => rfl
  | node v l r =>
    simp only [balance]
    split_ifs <;>
      simp [memb_rot_left, memb_rot_right, memb, Bool.or_assoc, Bool.or_comm,
        Bool.or_left_comm]

theorem forallT_imp {p q : Int → Prop} (h : ∀ x, p x → q x) :
    ∀ t, ForallT p t → ForallT q t := by
  intro t
  induction t with
  | empty => exact fun _ => trivial
  | node v l r ihl ihr =>
    rintro ⟨hv, hl, hr⟩
    exact ⟨h v hv, ihl hl, ihr hr⟩

theorem forallT_zip {p q s : Int → Prop} (h : ∀ y, p y → q y → s y) :
    ∀ t, ForallT p t → ForallT q t → ForallT s t := by
  intro t
  induction t with
  | empty => exact fun _ _ => trivial
  | node v l r ihl ihr =>
    rintro ⟨hv, hl, hr⟩ ⟨hv', hl', hr'⟩
    exact ⟨h v hv hv', ihl hl hl', ihr hr hr'⟩

theorem forallT_rot_left {p : Int → Prop} :
    ∀ t, ForallT p t → ForallT p (rot_left t) := by
  intro t
  cases t with
  | empty => exact id
  | node v l r =>
    cases r with
    | empty => exact id
    | node rv rl rr =>
      rintro ⟨hv, hl, hrv, hrl, hrr⟩
      exact ⟨hrv, ⟨hv, hl, hrl⟩, hrr⟩

theorem forallT_rot_right {p : Int → Prop} :
    ∀ t, ForallT p t → ForallT p (rot_right t) := by
  intro t
  cases t with
  | empty => exact id
  | node v l r =>
    cases l with
    | empty => exact id
    | node lv ll lr =>
      rintro ⟨hv, ⟨hlv, hll, hlr⟩, hr⟩
      exact ⟨hlv, hll, ⟨hv, hlr, hr⟩⟩

theorem forallT_balance {p : Int → Prop} :
    ∀ t, ForallT p t → ForallT p (balance t) := by
  intro t
  cases t with
  | empty => exact id
  | node v l r =>
    intro h
    obtain ⟨hv, hl, hr⟩ := h
    simp only [balance]
    split_ifs
    · exact forallT_rot_right _ ⟨hv, forallT_rot_left _ hl, hr⟩
    · exact forallT_rot_right _ ⟨hv, hl, hr⟩
    · exact forallT_rot_left _ ⟨hv, hl, forallT_rot_right _ hr⟩
    · exact forallT_rot_left _ ⟨hv, hl, hr⟩
    · exact ⟨hv, hl, hr⟩

/-!
The central balance lemma: on a node whose children are AVL and whose own
factor is at most two out of range, `balance` restores the AVL invariant and
shrinks the height by at most one (and never grows it).
-/

theorem balance_spec (v : Int) (l r : Tree) (hl : Avl l) (hr : Avl r)
    (hd1 : (height l : Int) ≤ height r + 2)
    (hd2 : (height r : Int) ≤ height l + 2) :
    Avl (balance (.node v l r)) ∧
    height (.node v l r) ≤ height (balance (.node v l r)) + 1 ∧
    height (balance (.node v l r)) ≤ height (.node v l r) := by
  by_cases h1 : bf (.node v l r) ≤ -2
  · rw [bf_node] at h1
    cases l with
    | empty => exfalso; simp only [height] at h1; omega
    | node lv ll lr =>
      have h1' : bf (.node v (.node lv ll lr) r) ≤ -2 := by rw [bf_node]; omega
      simp only [Avl] at hl
      obtain ⟨⟨hb1, hb2⟩, hll, hlr⟩ := hl
      by_cases h2 : 0 < bf (.node lv ll lr)
      · rw [bf_node] at h2
        cases lr with
        | empty => exfalso; simp only [height] at h2; omega
        | node lrv lrl lrr =>
          simp only [Avl] at hlr
          obtain ⟨⟨hc1, hc2⟩, hlrl, hlrr⟩ := hlr
          have h2' : 0 < bf (.node lv ll (.node lrv lrl lrr)) := by
            rw [bf_node]; omega
          have heq : balance (.node v (.node lv ll (.node lrv lrl lrr)) r) =
              .node lrv (.node lv ll lrl) (.node v lrr r) := by
            simp only [balance]
            rw [if_pos h1', if_pos h2']
            rfl
          rw [heq]
          refine ⟨?_, ?_, ?_⟩
          · simp only [Avl]
            refine ⟨⟨?_, ?_⟩, ⟨⟨?_, ?_⟩, hll, hlrl⟩, ⟨⟨?_, ?_⟩, hlrr, hr⟩⟩ <;>
              (simp only [height] at *; omega)
          · simp only [height] at *; omega
          · simp only [height] at *; omega
      · have heq : balance (.node v (.node lv ll lr) r) =
            .node lv ll (.node v lr r) := by
          simp only [balance]
          rw [if_pos h1', if_neg h2]
          rfl
        rw [heq]
        rw [bf_node] at h2
        refine ⟨?_, ?_, ?_⟩
        · simp only [Avl]
          refine ⟨⟨?_, ?_⟩, hll, ⟨⟨?_, ?_⟩, hlr, hr⟩⟩ <;>
            (simp only [height] at *; omega)
        · simp only [height] at *; omega
        · simp only [height] at *; omega
  · by_cases h3 : 2 ≤ bf (.node v l r)
    · rw [bf_node] at h3
      cases r with
      | empty => exfalso; simp only [height] at h3; omega
      | node rv rl rr =>
        have h1' : ¬ bf (.node v l (.node rv rl rr)) ≤ -2 := h1
        have h3' : 2 ≤ bf (.node v l (.node rv rl rr)) := by rw [bf_node]; omega
        simp only [Avl] at hr
        obtain ⟨⟨hb1, hb2⟩, hrl, hrr⟩ := hr
        by_cases h4 : bf (.node rv rl rr) < 0
        · rw [bf_node] at h4
          cases rl with
          | empty => exfalso; simp only [height] at h4; omega
          | node rlv rll rlr =>
            simp only [Avl] at hrl
            obtain ⟨⟨hc1, hc2⟩, hrll, hrlr⟩ := hrl
            have h4' : bf (.node rv (.node rlv rll rlr) rr) < 0 := by
              rw [bf_node]; omega
            have heq : balance (.node v l (.node rv (.node rlv rll rlr) rr)) =
                .node rlv (.node v l rll) (.node rv rlr rr) := by
              simp only [balance]
              rw [if_neg h1', if_pos h3', if_pos h4']
              rfl
            rw [heq]
            refine ⟨?_, ?_, ?_⟩
            · simp only [Avl]
              refine ⟨⟨?_, ?_⟩, ⟨⟨?_, ?_⟩, hl, hrll⟩, ⟨⟨?_, ?_⟩, hrlr, hrr⟩⟩ <;>
                (simp only [height] at *; omega)
            · simp only [height] at *; omega
            · simp only [height] at *; omega
        · have heq : balance (.node v l (.node rv rl rr)) =
              .node rv (.node v l rl) rr := by
            simp only [balance]
            rw [if_neg h1', if_pos h3', if_neg h4]
            rfl
          rw [heq]
          rw [bf_node] at h4
          refine ⟨?_, ?_, ?_⟩
          · simp only [Avl]
            refine ⟨⟨?_, ?_⟩, ⟨⟨?_, ?_⟩, hl, hrl⟩, hrr⟩ <;>
              (simp only [height] at *; omega)
          · simp only [height] at *; omega
          · simp only [height] at *; omega
    · rw [bf_node] at h1 h3
      rw [balance_id v l r (by omega) (by omega)]
      exact ⟨by simp only [Avl]; exact ⟨⟨by omega, by omega⟩, hl, hr⟩,
        by omega, le_refl _⟩

/-- Inserting preserves the AVL invariant and grows the height by at most
one. -/
theorem avl_insert (val : Int) :
    ∀ t, Avl t → Avl (insert t val) ∧
      (height (insert t val) = height t ∨
       height (insert t val) = height t + 1) := by
  intro t
  induction t with
  | empty =>
    exact fun _ => ⟨by simp [insert, Avl, height], Or.inr (by simp [insert, height])⟩
  | node v l r ihl ihr =>
    intro hAvl
    simp only [Avl] at hAvl
    obtain ⟨⟨hb1, hb2⟩, hl, hr⟩ := hAvl
    by_cases hlt : v < val
    · rw [insert_lt v val l r hlt]
      obtain ⟨iA, iH⟩ := ihr hr
      by_cases hin : -2 < (height (insert r val) : Int) - height l ∧
          (height (insert r val) : Int) - height l < 2
      · rw [balance_id v l (insert r val) hin.1 hin.2]
        refine ⟨by simp only [Avl]; exact ⟨⟨by omega, by omega⟩, hl, iA⟩, ?_⟩
        simp only [height]; omega
      · obtain ⟨bA, bH1, bH2⟩ :=
          balance_spec v l (insert r val) hl iA (by omega) (by omega)
        refine ⟨bA, ?_⟩
        simp only [height] at *
        omega
    · by_cases hgt : val < v
      · rw [insert_gt v val l r hlt hgt]
        obtain ⟨iA, iH⟩ := ihl hl
        by_cases hin : -2 < (height r : Int) - height (insert l val) ∧
            (height r : Int) - height (insert l val) < 2
        · rw [balance_id v (insert l val) r hin.1 hin.2]
          refine ⟨by simp only [Avl]; exact ⟨⟨by omega, by omega⟩, iA, hr⟩, ?_⟩
          simp only [height]; omega
        · obtain ⟨bA, bH1, bH2⟩ :=
            balance_spec v (insert l val) r iA hr (by omega) (by omega)
          refine ⟨bA, ?_⟩
          simp only [height] at *
          omega
      · rw [insert_eq_self v val l r hlt hgt]
        exact ⟨by simp only [Avl]; exact ⟨⟨hb1, hb2⟩, hl, hr⟩, Or.inl rfl⟩

/-- Removing preserves the AVL invariant and shrinks the height by at most
one. -/
theorem avl_remove :
    ∀ t, Avl t → ∀ val, Avl (remove t val) ∧
      (height t = height (remove t val) ∨
       height t = height (remove t val) + 1) := by
  intro t
  induction t with
  | empty => exact fun _ _ => ⟨trivial, Or.inl rfl⟩
  | node v l r ihl ihr =>
    intro hAvl val
    simp only [Avl] at hAvl
    obtain ⟨⟨hb1, hb2⟩, hl, hr⟩ := hAvl
    by_cases h1 : val < v
    · rw [remove_lt v val l r h1]
      obtain ⟨iA, iH⟩ := ihl hl val
      by_cases hin : -2 < (height r : Int) - height (remove l val) ∧
          (height r : Int) - height (remove l val) < 2
      · rw [balance_id v (remove l val) r hin.1 hin.2]
        refine ⟨by simp only [Avl]; exact ⟨⟨by omega, by omega⟩, iA, hr⟩, ?_⟩
        simp only [height]; omega
      · obtain ⟨bA, bH1, bH2⟩ :=
          balance_spec v (remove l val) r iA hr (by omega) (by omega)
        refine ⟨bA, ?_⟩
        simp only [height] at *
        omega
    · by_cases h2 : v < val
      · rw [remove_gt v val l r h1 h2]
        obtain ⟨iA, iH⟩ := ihr hr val
        by_cases hin : -2 < (height (remove r val) : Int) - height l ∧
            (height (remove r val) : Int) - height l < 2
        · rw [balance_id v l (remove r val) hin.1 hin.2]
          refine ⟨by simp only [Avl]; exact ⟨⟨by omega, by omega⟩, hl, iA⟩, ?_⟩
          simp only [height]; omega
        · obtain ⟨bA, bH1, bH2⟩ :=
            balance_spec v l (remove r val) hl iA (by omega) (by omega)
          refine ⟨bA, ?_⟩
          simp only [height] at *
          omega
      · cases l with
        | empty =>
          rw [remove_empty_left v val r h1 h2]
          refine ⟨hr, ?_⟩
          simp only [height]; omega
        | node lv ll lr =>
          cases r with
          | empty =>
            rw [remove_empty_right v val lv ll lr h1 h2]
            refine ⟨hl, ?_⟩
            simp only [height]; omega
          | node rv rl rr =>
            rw [remove_two v val lv rv ll lr rl rr h1 h2]
            obtain ⟨iA, iH⟩ := ihl hl (rightmostD lv lr)
            by_cases hin : -2 < (height (.node rv rl rr) : Int) -
                height (remove (.node lv ll lr) (rightmostD lv lr)) ∧
                (height (.node rv rl rr) : Int) -
                height (remove (.node lv ll lr) (rightmostD lv lr)) < 2
            · rw [balance_id (rightmostD lv lr)
                (remove (.node lv ll lr) (rightmostD lv lr))
                (.node rv rl rr) hin.1 hin.2]
              refine ⟨by simp only [Avl]; exact ⟨⟨by omega, by omega⟩, iA, hr⟩, ?_⟩
              simp only [height] at *; omega
            · obtain ⟨bA, bH1, bH2⟩ := balance_spec (rightmostD lv lr)
                (remove (.node lv ll lr) (rightmostD lv lr))
                (.node rv rl rr) iA hr (by omega) (by omega)
              refine ⟨bA, ?_⟩
              simp only [height] at *
              omega

/-!
Preservation of the binary-search-tree order invariant.
-/

theorem bst_rot_left : ∀ t, BST t → BST (rot_left t) := by
  intro t
  cases t with
  | empty => exact id
  | node v l r =>
    cases r with
    | empty => exact id
    | node rv rl rr =>
      rintro ⟨Fl, ⟨hvrv, Frl, Frr⟩, Bl, ⟨Grl, Grr, Brl, Brr⟩⟩
      exact ⟨⟨hvrv, forallT_imp (fun x hx => lt_trans hx hvrv) l Fl, Grl⟩,
        Grr, ⟨Fl, Frl, Bl, Brl⟩, Brr⟩

theorem bst_rot_right : ∀ t, BST t → BST (rot_right t) := by
  intro t
  cases t with
  | empty => exact id
  | node v l r =>
    cases l with
    | empty => exact id
    | node lv ll lr =>
      rintro ⟨⟨hlv, Fll, Flr⟩, Fr, ⟨Gll, Glr, Bll, Blr⟩, Br⟩
      exact ⟨Gll, ⟨hlv, Glr, forallT_imp (fun x hx => lt_trans hlv hx) r Fr⟩,
        Bll, ⟨Flr, Fr, Blr, Br⟩⟩

theorem bst_balance : ∀ t, BST t → BST (balance t) := by
  intro t
  cases t with
  | empty => exact id
  | node v l r =>
    rintro ⟨Fl, Fr, Bl, Br⟩
    simp only [balance]
    split_ifs
    · exact bst_rot_right _ ⟨forallT_rot_left _ Fl, Fr, bst_rot_left _ Bl, Br⟩
    · exact bst_rot_right _ ⟨Fl, Fr, Bl, Br⟩
    · exact bst_rot_left _ ⟨Fl, forallT_rot_right _ Fr, Bl, bst_rot_right _ Br⟩
    · exact bst_rot_left _ ⟨Fl, Fr, Bl, Br⟩
    · exact ⟨Fl, Fr, Bl, Br⟩

theorem forallT_insert (p : Int → Prop) (val : Int) (hp : p val) :
    ∀ t, ForallT p t → ForallT p (insert t val) := by
  intro t
  induction t with
  | empty =>
    intro _
    simp only [insert, ForallT]
    exact ⟨hp, trivial, trivial⟩
  | node v l r ihl ihr =>
    rintro ⟨hv, hl, hr⟩
    by_cases hlt : v < val
    · rw [insert_lt v val l r hlt]
      exact forallT_balance _ ⟨hv, hl, ihr hr⟩
    · by_cases hgt : val < v
      · rw [insert_gt v val l r hlt hgt]
        exact forallT_balance _ ⟨hv, ihl hl, hr⟩
      · rw [insert_eq_self v val l r hlt hgt]
        exact ⟨hv, hl, hr⟩

theorem rightmostD_prop (p : Int → Prop) :
    ∀ (r : Tree) (v : Int), p v → ForallT p r → p (rightmostD v r) := by
  intro r
  induction r with
  | empty => exact fun v hv _ => hv
  | node rv rl rr ihl ihr =>
    rintro v hv ⟨hrv, hrl, hrr⟩
    simp only [rightmostD]
    exact ihr rv hrv hrr

theorem forallT_remove {p : Int → Prop} :
    ∀ t val, ForallT p t → ForallT p (remove t val) := by
  intro t
  induction t with
  | empty => exact fun _ _ => trivial
  | node v l r ihl ihr =>
    rintro val ⟨hv, hl, hr⟩
    by_cases h1 : val < v
    · rw [remove_lt v val l r h1]
      exact forallT_balance _ ⟨hv, ihl val hl, hr⟩
    · by_cases h2 : v < val
      · rw [remove_gt v val l r h1 h2]
        exact forallT_balance _ ⟨hv, hl, ihr val hr⟩
      · cases l with
        | empty => rw [remove_empty_left v val r h1 h2]; exact hr
        | node lv ll lr =>
          cases r with
          | empty => rw [remove_empty_right v val lv ll lr h1 h2]; exact hl
          | node rv rl rr =>
            rw [remove_two v val lv rv ll lr rl rr h1 h2]
            apply forallT_balance
            have hl2 := hl
            obtain ⟨plv, pll, plr⟩ := hl2
            exact ⟨rightmostD_prop p lr lv plv plr, ihl _ hl, hr⟩

theorem bst_insert (val : Int) : ∀ t, BST t → BST (insert t val) := by
  intro t
  induction t with
  | empty =>
    intro _
    simp only [insert, BST, ForallT]
    exact ⟨trivial, trivial, trivial, trivial⟩
  | node v l r ihl ihr =>
    rintro ⟨Fl, Fr, Bl, Br⟩
    by_cases hlt : v < val
    · rw [insert_lt v val l r hlt]
      exact bst_balance _ ⟨Fl, forallT_insert (v < ·) val hlt r Fr, Bl, ihr Br⟩
    · by_cases hgt : val < v
      · rw [insert_gt v val l r hlt hgt]
        exact bst_balance _ ⟨forallT_insert (· < v) val hgt l Fl, Fr, ihl Bl, Br⟩
      · rw [insert_eq_self v val l r hlt hgt]
        exact ⟨Fl, Fr, Bl, Br⟩

theorem rightmostD_ub :
    ∀ (r : Tree) (v : Int), BST r → ForallT (v < ·) r →
      v ≤ rightmostD v r ∧ ForallT (· ≤ rightmostD v r) r := by
  intro r
  induction r with
  | empty => exact fun v _ _ => ⟨le_refl v, trivial⟩
  | node rv rl rr ihl ihr =>
    rintro v ⟨Frl, Frr, Brl, Brr⟩ ⟨hvrv, _, _⟩
    simp only [rightmostD]
    obtain ⟨h1, h2⟩ := ihr rv Brr Frr
    exact ⟨le_trans (le_of_lt hvrv) h1,
      h1, forallT_imp (fun x hx => le_trans (le_of_lt hx) h1) rl Frl, h2⟩

/-- The value produced by the `rightmost` walk is the greatest value of a
(BST-ordered) non-empty tree. -/
theorem rightmostD_max (lv : Int) (ll lr : Tree) (hB : BST (.node lv ll lr)) :
    ForallT (· ≤ rightmostD lv lr) (.node lv ll lr) := by
  obtain ⟨Fll, Flr, Bll, Blr⟩ := hB
  obtain ⟨h1, h2⟩ := rightmostD_ub lr lv Blr Flr
  exact ⟨h1, forallT_imp (fun x hx => le_trans (le_of_lt hx) h1) ll Fll, h2⟩

/-- Removing the greatest value of a BST leaves only strictly smaller
values. -/
theorem remove_strict :
    ∀ (t : Tree) (x : Int), BST t → ForallT (· ≤ x) t →
      ForallT (· < x) (remove t x) := by
  intro t
  induction t with
  | empty => exact fun _ _ _ => trivial
  | node v l r ihl ihr =>
    rintro x ⟨Fl, Fr, Bl, Br⟩ ⟨hvx, hFl, hFr⟩
    by_cases h1 : x < v
    · exact absurd hvx (by omega)
    · by_cases h2 : v < x
      · rw [remove_gt v x l r h1 h2]
        apply forallT_balance
        exact ⟨h2, forallT_imp (fun y hy => lt_trans hy h2) l Fl, ihr x Br hFr⟩
      · have hvx' : v = x := by omega
        cases l with
        | empty =>
          rw [remove_empty_left v x r h1 h2]
          exact forallT_zip (fun y hy hy' => by omega) r Fr hFr
        | node lv ll lr =>
          cases r with
          | empty =>
            rw [remove_empty_right v x lv ll lr h1 h2]
            exact forallT_imp (fun y hy => by omega) _ Fl
          | node rv rl rr =>
            rw [remove_two v x lv rv ll lr rl rr h1 h2]
            apply forallT_balance
            have Fl2 := Fl
            obtain ⟨plv, pll, plr⟩ := Fl2
            have hx' : rightmostD lv lr < v :=
              rightmostD_prop (· < v) lr lv plv plr
            refine ⟨by omega, ?_, ?_⟩
            · apply forallT_remove
              exact forallT_imp (fun y hy => by omega) _ Fl
            · exact forallT_zip (fun y hy hy' => by omega) _ Fr hFr

theorem bst_remove : ∀ t val, BST t → BST (remove t val) := by
  intro t
  induction t with
  | empty => exact fun _ _ => trivial
  | node v l r ihl ihr =>
    rintro val ⟨Fl, Fr, Bl, Br⟩
    by_cases h1 : val < v
    · rw [remove_lt v val l r h1]
      exact bst_balance _ ⟨forallT_remove l val Fl, Fr, ihl val Bl, Br⟩
    · by_cases h2 : v < val
      · rw [remove_gt v val l r h1 h2]
        exact bst_balance _ ⟨Fl, forallT_remove r val Fr, Bl, ihr val Br⟩
      · cases l with
        | empty => rw [remove_empty_left v val r h1 h2]; exact Br
        | node lv ll lr =>
          cases r with
          | empty => rw [remove_empty_right v val lv ll lr h1 h2]; exact Bl
          | node rv rl rr =>
            rw [remove_two v val lv rv ll lr rl rr h1 h2]
            apply bst_balance
            have hmax := rightmostD_max lv ll lr Bl
            have Fl2 := Fl
            obtain ⟨plv, pll, plr⟩ := Fl2
            have hx' : rightmostD lv lr < v :=
              rightmostD_prop (· < v) lr lv plv plr
            exact ⟨remove_strict (.node lv ll lr) (rightmostD lv lr) Bl hmax,
              forallT_imp (fun y hy => lt_trans hx' hy) _ Fr,
              ihl (rightmostD lv lr) Bl, Br⟩

/-!
Membership calculus: the effect of `insert` and `remove` on `memb`, and the
agreement of the path-following `contains` with the ground-truth `memb` on
BST-ordered trees.
-/

theorem memb_node (v : Int) (l r : Tree) (y : Int) :
    memb (.node v l r) y = (decide (v = y) || memb l y || memb r y) := rfl

theorem memb_insert : ∀ t (val y : Int),
    memb (insert t val) y = (memb t y || decide (y = val)) := by
  intro t
  induction t with
  | empty =>
    intro val y
    simp [insert, memb, eq_comm]
  | node v l r ihl ihr =>
    intro val y
    by_cases hlt : v < val
    · rw [insert_lt v val l r hlt, memb_balance]
      simp only [memb]
      rw [ihr val y]
      simp [Bool.or_assoc]
    · by_cases hgt : val < v
      · rw [insert_gt v val l r hlt hgt, memb_balance]
        simp only [memb]
        rw [ihl val y]
        simp [Bool.or_assoc, Bool.or_comm, Bool.or_left_comm]
      · have hv : v = val := by omega
        rw [insert_eq_self v val l r hlt hgt]
        by_cases hy : y = val
        · simp [memb, hv, hy]
        · simp [memb, hy]

theorem forallT_memb {p : Int → Prop} :
    ∀ t y, ForallT p t → memb t y = true → p y := by
  intro t
  induction t with
  | empty => intro y _ h; simp [memb] at h
  | node v l r ihl ihr =>
    rintro y ⟨hv, hl, hr⟩ hm
    simp only [memb, Bool.or_eq_true, decide_eq_true_eq] at hm
    rcases hm with (h | h) | h
    · exact h ▸ hv
    · exact ihl y hl h
    · exact ihr y hr h

theorem memb_false_of_forallT {p : Int → Prop} :
    ∀ t y, ForallT p t → ¬ p y → memb t y = false := by
  intro t y hF hp
  cases hm : memb t y
  · rfl
  · exact absurd (forallT_memb t y hF hm) hp

theorem rightmostD_memb :
    ∀ (r : Tree) (v : Int) (l : Tree),
      memb (.node v l r) (rightmostD v r) = true := by
  intro r
  induction r with
  | empty => intro v l; simp [rightmostD, memb]
  | node rv rl rr ihl ihr =>
    intro v l
    simp only [rightmostD]
    have h := ihr rv rl
    rw [memb_node, h]
    simp

theorem memb_remove :
    ∀ t, BST t → ∀ (val y : Int),
      memb (remove t val) y = (memb t y && !decide (y = val)) := by
  intro t
  induction t with
  | empty => intro _ val y; simp [remove, memb]
  | node v l r ihl ihr =>
    rintro ⟨Fl, Fr, Bl, Br⟩ val y
    by_cases h1 : val < v
    · rw [remove_lt v val l r h1, memb_balance]
      simp only [memb]
      rw [ihl Bl val y]
      by_cases hy : y = val
      · subst hy
        have hv0 : decide (v = y) = false := by
          simp only [decide_eq_false_iff_not]; omega
        have hr0 : memb r y = false :=
          memb_false_of_forallT r y Fr (by omega)
        simp [hv0, hr0]
      · simp [hy]
    · by_cases h2 : v < val
      · rw [remove_gt v val l r h1 h2, memb_balance]
        simp only [memb]
        rw [ihr Br val y]
        by_cases hy : y = val
        · subst hy
          have hv0 : decide (v = y) = false := by
            simp only [decide_eq_false_iff_not]; omega
          have hl0 : memb l y = false :=
            memb_false_of_forallT l y Fl (by omega)
          simp [hv0, hl0]
        · simp [hy]
      · have hveq : v = val := by omega
        cases l with
        | empty =>
          rw [remove_empty_left v val r h1 h2]
          by_cases hy : y = val
          · subst hy
            have hr0 : memb r y = false :=
              memb_false_of_forallT r y Fr (by omega)
            simp [memb, hr0]
          · have hv0 : decide (v = y) = false := by
              simp only [decide_eq_false_iff_not]; omega
            simp [memb, hy, hv0]
        | node lv ll lr =>
          cases r with
          | empty =>
            rw [remove_empty_right v val lv ll lr h1 h2]
            have hR : memb (.node v (.node lv ll lr) .empty) y =
                (decide (v = y) || memb (.node lv ll lr) y || false) := rfl
            rw [hR]
            by_cases hy : y = val
            · subst hy
              have hl0 : memb (.node lv ll lr) y = false :=
                memb_false_of_forallT _ y Fl (by omega)
              simp [hl0]
            · have hv0 : decide (v = y) = false := by
                simp only [decide_eq_false_iff_not]; omega
              simp [hy, hv0]
          | node rv rl rr =>
            have hL : memb (remove (.node v (.node lv ll lr)
                (.node rv rl rr)) val) y =
                (decide (rightmostD lv lr = y) ||
                 (memb (.node lv ll lr) y && !decide (y = rightmostD lv lr)) ||
                 memb (.node rv rl rr) y) := by
              rw [remove_two v val lv rv ll lr rl rr h1 h2, memb_balance,
                memb_node, ihl Bl (rightmostD lv lr) y]
            have hR : memb (.node v (.node lv ll lr) (.node rv rl rr)) y =
                (decide (v = y) || memb (.node lv ll lr) y ||
                 memb (.node rv rl rr) y) := rfl
            rw [hL, hR]
            have Fl2 := Fl
            obtain ⟨plv, pll, plr⟩ := Fl2
            have hx : rightmostD lv lr < v :=
              rightmostD_prop (· < v) lr lv plv plr
            have hxm : memb (.node lv ll lr) (rightmostD lv lr) = true :=
              rightmostD_memb lr lv ll
            by_cases hy : y = val
            · subst hy
              have hx0 : decide (rightmostD lv lr = y) = false := by
                simp only [decide_eq_false_iff_not]; omega
              have hx0' : decide (y = rightmostD lv lr) = false := by
                simp only [decide_eq_false_iff_not]; omega
              have hl0 : memb (.node lv ll lr) y = false :=
                memb_false_of_forallT _ y Fl (by omega)
              have hr0 : memb (.node rv rl rr) y = false :=
                memb_false_of_forallT _ y Fr (by omega)
              simp [hx0, hx0', hl0, hr0]
            · have hv0 : decide (v = y) = false := by
                simp only [decide_eq_false_iff_not]; omega
              by_cases hyx : y = rightmostD lv lr
              · have he1 : decide (rightmostD lv lr = y) = true := by
                  simp [hyx]
                have he2 : memb (.node lv ll lr) y = true := by
                  rw [hyx]; exact hxm
                simp [he1, he2, hy]
              · have he1 : decide (rightmostD lv lr = y) = false := by
                  simp only [decide_eq_false_iff_not]; omega
                have he2 : decide (y = rightmostD lv lr) = false := by
                  simp only [decide_eq_false_iff_not]; omega
                simp [he1, he2, hv0, hy]

theorem contains_imp_memb : ∀ t y, contains t y = true → memb t y = true := by
  intro t
  induction t with
  | empty => intro y h; simp [contains] at h
  | node v l r ihl ihr =>
    intro y h
    simp only [contains] at h
    by_cases hv : v = y
    · simp [memb, hv]
    · rw [if_neg hv] at h
      by_cases hlt : y < v
      · rw [if_pos hlt] at h
        simp [memb, ihl y h]
      · rw [if_neg hlt] at h
        simp [memb, ihr y h]

theorem contains_eq_memb : ∀ t, BST t → ∀ y, contains t y = memb t y := by
  intro t
  induction t with
  | empty => intro _ y; rfl
  | node v l r ihl ihr =>
    rintro ⟨Fl, Fr, Bl, Br⟩ y
    simp only [contains, memb]
    by_cases hv : v = y
    · simp [hv]
    · rw [if_neg hv]
      have hv0 : decide (v = y) = false := by
        simp only [decide_eq_false_iff_not]; exact hv
      by_cases hlt : y < v
      · rw [if_pos hlt, ihl Bl y]
        have hr0 : memb r y = false :=
          memb_false_of_forallT r y Fr (by omega)
        simp [hr0, hv0]
      · rw [if_neg hlt, ihr Br y]
        have hl0 : memb l y = false :=
          memb_false_of_forallT l y Fl (by omega)
        simp [hl0, hv0]

/-- Inserting a value that is already present returns a structurally equal
tree (on valid trees the rebuilt path collapses back to the input). -/
theorem insert_self_of_mem :
    ∀ t, BST t → Avl t → ∀ val, memb t val = true → insert t val = t := by
  intro t
  induction t with
  | empty => intro _ _ val h; simp [memb] at h
  | node v l r ihl ihr =>
    intro hB hA val hm
    obtain ⟨Fl, Fr, Bl, Br⟩ := hB
    simp only [Avl] at hA
    obtain ⟨⟨hb1, hb2⟩, Al, Ar⟩ := hA
    simp only [memb, Bool.or_eq_true, decide_eq_true_eq] at hm
    by_cases hlt : v < val
    · have hrm : memb r val = true := by
        rcases hm with (h | h) | h
        · exact absurd h (by omega)
        · exact absurd (forallT_memb l val Fl h) (by omega)
        · exact h
      rw [insert_lt v val l r hlt, ihr Br Ar val hrm]
      exact balance_id v l r (by omega) (by omega)
    · by_cases hgt : val < v
      · have hlm : memb l val = true := by
          rcases hm with (h | h) | h
          · exact absurd h (by omega)
          · exact h
          · exact absurd (forallT_memb r val Fr h) (by omega)
        rw [insert_gt v val l r hlt hgt, ihl Bl Al val hlm]
        exact balance_id v l r (by omega) (by omega)
      · exact insert_eq_self v val l r hlt hgt

/-- Removing an absent value returns a structurally equal tree. -/
theorem remove_self_of_not_mem :
    ∀ t, Avl t → ∀ val, memb t val = false → remove t val = t := by
  intro t
  induction t with
  | empty => intro _ val _; rfl
  | node v l r ihl ihr =>
    intro hA val hm
    simp only [Avl] at hA
    obtain ⟨⟨hb1, hb2⟩, Al, Ar⟩ := hA
    simp only [memb, Bool.or_eq_false_iff, decide_eq_false_iff_not] at hm
    obtain ⟨⟨hv, hl0⟩, hr0⟩ := hm
    by_cases h1 : val < v
    · rw [remove_lt v val l r h1, ihl Al val hl0]
      exact balance_id v l r (by omega) (by omega)
    · by_cases h2 : v < val
      · rw [remove_gt v val l r h1 h2, ihr Ar val hr0]
        exact balance_id v l r (by omega) (by omega)
      · exact absurd (by omega : v = val) hv

/-!
Operation histories: the invariants hold for every tree reachable from the
empty tree, and `memAfter` models membership exactly.
-/

theorem bst_applyOps :
    ∀ (ops : List Op) (t : Tree), BST t → BST (applyOps t ops) := by
  intro ops
  induction ops with
  | nil => exact fun t h => h
  | cons op ops ih =>
    intro t h
    cases op with
    | ins u => exact ih _ (bst_insert u t h)
    | del u => exact ih _ (bst_remove t u h)

theorem avl_applyOps :
    ∀ (ops : List Op) (t : Tree), Avl t → Avl (applyOps t ops) := by
  intro ops
  induction ops with
  | nil => exact fun t h => h
  | cons op ops ih =>
    intro t h
    cases op with
    | ins u => exact ih _ (avl_insert u t h).1
    | del u => exact ih _ (avl_remove t h u).1

theorem memb_applyOps :
    ∀ (ops : List Op) (t : Tree), BST t → ∀ v,
      memb (applyOps t ops) v = memAfter (memb t v) ops v := by
  intro ops
  induction ops with
  | nil => intro t _ v; rfl
  | cons op ops ih =>
    intro t hB v
    cases op with
    | ins u =>
      show memb (applyOps (insert t u) ops) v =
        memAfter (memb t v || decide (v = u)) ops v
      rw [ih (insert t u) (bst_insert u t hB) v, memb_insert t u v]
    | del u =>
      show memb (applyOps (remove t u) ops) v =
        memAfter (memb t v && !decide (v = u)) ops v
      rw [ih (remove t u) (bst_remove t u hB) v, memb_remove t hB u v]

theorem cons_decomp (x : Op) (rest : List Op) (v : Int) :
    (∃ pre post, x :: rest = pre ++ Op.ins v :: post ∧ Op.del v ∉ post) ↔
      ((x = Op.ins v ∧ Op.del v ∉ rest) ∨
       (∃ pre post, rest = pre ++ Op.ins v :: post ∧ Op.del v ∉ post)) := by
  constructor
  · rintro ⟨pre, post, heq, hnot⟩
    cases pre with
    | nil =>
      simp only [List.nil_append, List.cons.injEq] at heq
      exact Or.inl ⟨heq.1, heq.2 ▸ hnot⟩
    | cons p pre' =>
      simp only [List.cons_append, List.cons.injEq] at heq
      exact Or.inr ⟨pre', post, heq.2, hnot⟩
  · rintro (⟨hx, hnot⟩ | ⟨pre, post, heq, hnot⟩)
    · exact ⟨[], rest, by simp [hx], hnot⟩
    · exact ⟨x :: pre, post, by simp [heq], hnot⟩

/-- The reference model returns true exactly when the history contains an
insertion of `v` with no later removal of `v` (or the value was present
initially and never removed). -/
theorem memAfter_iff : ∀ (ops : List Op) (b : Bool) (v : Int),
    (memAfter b ops v = true ↔
      ((∃ pre post, ops = pre ++ Op.ins v :: post ∧ Op.del v ∉ post) ∨
       (b = true ∧ Op.del v ∉ ops))) := by
  intro ops
  induction ops with
  | nil =>
    intro b v
    constructor
    · intro hb; exact Or.inr ⟨hb, by simp⟩
    · rintro (⟨pre, post, heq, _⟩ | ⟨hb, _⟩)
      · exact absurd heq (by simp)
      · exact hb
  | cons op ops ih =>
    intro b v
    cases op with
    | ins u =>
      show memAfter (b || decide (v = u)) ops v = true ↔ _
      rw [ih (b || decide (v = u)) v, cons_decomp]
      constructor
      · rintro (h | ⟨hb, hnot⟩)
        · exact Or.inl (Or.inr h)
        · rcases (Bool.or_eq_true _ _).mp hb with h | h
          · refine Or.inr ⟨h, ?_⟩
            intro hmem
            rcases List.mem_cons.mp hmem with h' | h'
            · exact absurd h' (by simp)
            · exact hnot h'
          · have hvu : v = u := of_decide_eq_true h
            exact Or.inl (Or.inl ⟨by rw [hvu], hnot⟩)
      · rintro ((⟨hx, hnot⟩ | h) | ⟨hb, hnot⟩)
        · have hvu : u = v := by
            injection hx
          refine Or.inr ⟨by simp [hvu], hnot⟩
        · exact Or.inl h
        · refine Or.inr ⟨by simp [hb], ?_⟩
          exact fun hmem => hnot (List.mem_cons_of_mem _ hmem)
    | del u =>
      show memAfter (b && !decide (v = u)) ops v = true ↔ _
      rw [ih (b && !decide (v = u)) v, cons_decomp]
      constructor
      · rintro (h | ⟨hb, hnot⟩)
        · exact Or.inl (Or.inr h)
        · obtain ⟨hb1, hb2⟩ := (Bool.and_eq_true _ _).mp hb
          have hne : ¬ v = u := by
            simpa using hb2
          refine Or.inr ⟨hb1, ?_⟩
          intro hmem
          rcases List.mem_cons.mp hmem with h' | h'
          · exact hne (by injection h')
          · exact hnot h'
      · rintro ((⟨hx, hnot⟩ | h) | ⟨hb, hnot⟩)
        · exact absurd hx (by simp)
        · exact Or.inl h
        · have hne : ¬ v = u := fun he => hnot (by simp [he])
          have hno : Op.del v ∉ ops :=
            fun hmem => hnot (List.mem_cons_of_mem _ hmem)
          exact Or.inr ⟨by simp [hb, hne], hno⟩

/-!
BST order implies that the in-order value list has no duplicates.
-/

theorem forallT_inorder {p : Int → Prop} :
    ∀ t, ForallT p t → ∀ x ∈ inorder t, p x := by
  intro t
  induction t with
  | empty => intro _ x hx; simp [inorder] at hx
  | node v l r ihl ihr =>
    rintro ⟨hv, hl, hr⟩ x hx
    simp only [inorder, List.mem_append, List.mem_cons] at hx
    rcases hx with h | h | h
    · exact ihl hl x h
    · exact h ▸ hv
    · exact ihr hr x h

theorem nodup_inorder : ∀ t, BST t → (inorder t).Nodup := by
  intro t
  induction t with
  | empty => intro _; simp [inorder]
  | node v l r ihl ihr =>
    rintro ⟨Fl, Fr, Bl, Br⟩
    simp only [inorder]
    rw [List.nodup_append]
    refine ⟨ihl Bl, ?_, ?_⟩
    · rw [List.nodup_cons]
      refine ⟨?_, ihr Br⟩
      intro hmem
      exact absurd (forallT_inorder r Fr v hmem) (lt_irrefl v)
    · intro a ha hb
      have h1 : a < v := forallT_inorder l Fl a ha
      rcases List.mem_cons.mp hb with h | h
      · omega
      · have h2 : v < a := forallT_inorder r Fr a h
        omega

/-- The internal `rightmost` precondition can never fire during `remove`:
the fault-propagating version always succeeds with the same result. -/
theorem removeE_eq : ∀ t val, removeE t val = some (remove t val) := by
  intro t
  induction t with
  | empty => intro val; rfl
  | node v l r ihl ihr =>
    intro val
    by_cases h1 : val < v
    · rw [remove_lt v val l r h1, removeE.eq_def]
      simp [h1, ihl val]
    · by_cases h2 : v < val
      · rw [remove_gt v val l r h1 h2, removeE.eq_def]
        simp [h1, h2, ihr val]
      · cases l with
        | empty =>
          rw [remove_empty_left v val r h1 h2, removeE.eq_def]
          simp [h1, h2]
        | node lv ll lr =>
          cases r with
          | empty =>
            rw [remove_empty_right v val lv ll lr h1 h2, removeE.eq_def]
            simp [h1, h2]
          | node rv rl rr =>
            rw [remove_two v val lv rv ll lr rl rr h1 h2, removeE.eq_def]
            simp [h1, h2, rightmost, ihl (rightmostD lv lr)]

/-!
The tree component of each instrumented function agrees with the plain
function; the counters are pure observations.
-/

theorem rot_leftC_fst : ∀ t, (rot_leftC t).1 = rot_left t := by
  intro t
  cases t with
  | empty => rfl
  | node v l r =>
    cases r with
    | empty => rfl
    | node rv rl rr => rfl

theorem rot_rightC_fst : ∀ t, (rot_rightC t).1 = rot_right t := by
  intro t
  cases t with
  | empty => rfl
  | node v l r =>
    cases l with
    | empty => rfl
    | node lv ll lr => rfl

theorem balanceC_fst : ∀ t, (balanceC t).1 = balance t := by
  intro t
  cases t with
  | empty => rfl
  | node v l r =>
    simp only [balanceC, balance]
    split_ifs <;> simp [rot_leftC_fst, rot_rightC_fst]

theorem insertC_fst : ∀ t val, (insertC t val).1 = insert t val := by
  intro t
  induction t with
  | empty => intro val; rfl
  | node v l r ihl ihr =>
    intro val
    by_cases h1 : v < val
    · simp [insertC, insert, h1, balanceC_fst, ihr val]
    · by_cases h2 : val < v
      · simp [insertC, insert, h1, h2, balanceC_fst, ihl val]
      · simp [insertC, insert, h1, h2]

theorem removeC_fst : ∀ t val, (removeC t val).1 = remove t val := by
  intro t
  induction t with
  | empty => intro val; rfl
  | node v l r ihl ihr =>
    intro val
    rw [removeC.eq_def, remove.eq_def]
    by_cases h1 : val < v
    · simp [h1, balanceC_fst, ihl val]
    · by_cases h2 : v < val
      · simp [h1, h2, balanceC_fst, ihr val]
      · cases l with
        | empty => simp [h1, h2]
        | node lv ll lr =>
          cases r with
          | empty => simp [h1, h2]
          | node rv rl rr =>
            simp [h1, h2, balanceC_fst, ihl (rightmostD lv lr)]

/-!
The claims.
-/

/-- C1: for every tree reachable from the empty tree by any sequence of
insert and remove operations, every inner node of the resulting tree has
balance factor `height(right) - height(left)` in the set of integers
between -1 and 1 (the `Avl` predicate asserts exactly this at every inner
node). -/
theorem C1_balance_invariant (ops : List Op) : Avl (applyOps .empty ops) :=
  avl_applyOps ops .empty trivial

/-- C2: for every tree produced from the empty tree by any sequence of
insert and remove operations, every reachable inner node satisfies the
binary-search-tree order (all left-subtree values smaller, all
right-subtree values larger than the node value, the `BST` predicate), and
no value occurs twice (the in-order value list has no duplicates). -/
theorem C2_bst_invariant (ops : List Op) :
    BST (applyOps .empty ops) ∧ (inorder (applyOps .empty ops)).Nodup :=
  ⟨bst_applyOps ops .empty trivial,
   nodup_inorder _ (bst_applyOps ops .empty trivial)⟩

/-- C3: for every sequence of insert and remove operations applied from the
empty tree and every value `v`, `contains` returns true exactly when the
history contains an insertion of `v` that is not followed by a removal of
`v` (duplicate insertions are absorbed, so a single such insertion
suffices). -/
theorem C3_membership (ops : List Op) (v : Int) :
    contains (applyOps .empty ops) v = true ↔
      ∃ pre post, ops = pre ++ Op.ins v :: post ∧ Op.del v ∉ post := by
  rw [contains_eq_memb _ (bst_applyOps ops .empty trivial) v,
    memb_applyOps ops .empty trivial v]
  show memAfter false ops v = true ↔ _
  rw [memAfter_iff ops false v]
  constructor
  · rintro (h | ⟨hb, _⟩)
    · exact h
    · exact absurd hb (by simp)
  · exact fun h => Or.inl h

/-- C4 counterexample: removing the absent value 2 from the singleton tree
holding 1 performs one `InnerNode` allocation (the rebuilt root), so the
returned tree is a fresh structurally-equal copy of the search path, not
the very same nodes; the claim that `remove` returns the input with the
same node identity (zero allocations) is false. -/
theorem C4_counterexample :
    memb (.node 1 .empty .empty) 2 = false ∧
    (removeC (.node 1 .empty .empty) 2).2.1 = 1 ∧
    (removeC (.node 1 .empty .empty) 2).1 = .node 1 .empty .empty :=
  ⟨rfl, rfl, rfl⟩

/-- C4 amended: for every AVL-balanced tree `t` and value `v` not contained
in `t`, `remove t v` returns a tree structurally equal to `t` (same values
and shape); node identity is not preserved, because the nodes along the
search path are freshly reallocated. -/
theorem C4_amended (t : Tree) (v : Int) (hA : Avl t)
    (hm : memb t v = false) : remove t v = t :=
  remove_self_of_not_mem t hA v hm

/-- Witness for the amended C4 at the singleton tree holding 1 and the
absent value 2. -/
theorem C4_amended_witness :
    Avl (.node 1 .empty .empty) ∧ memb (.node 1 .empty .empty) 2 = false ∧
    remove (.node 1 .empty .empty) 2 = .node 1 .empty .empty := by
  have hA : Avl (.node 1 .empty .empty) := by simp [Avl, height]
  exact ⟨hA, rfl, C4_amended (.node 1 .empty .empty) 2 hA rfl⟩

/-- C5 counterexample: the tree with root 2 and left child 1 contains 1,
yet inserting 1 again performs one `InnerNode` allocation (the rebuilt
root), so the call is not allocation-free; performing the insertion twice,
the second call also allocates one node that is reachable from (indeed is)
the root of its result.  Only the structural content is unchanged. -/
theorem C5_counterexample :
    memb (.node 2 (.node 1 .empty .empty) .empty) 1 = true ∧
    (insertC (.node 2 (.node 1 .empty .empty) .empty) 1).2.1 = 1 ∧
    (insertC ((insertC (.node 2 (.node 1 .empty .empty) .empty) 1).1) 1).2.1
      = 1 ∧
    (insertC (.node 2 (.node 1 .empty .empty) .empty) 1).1 =
      .node 2 (.node 1 .empty .empty) .empty :=
  ⟨rfl, rfl, rfl, rfl⟩

/-- C5 amended: inserting a value already contained in a valid (BST and
AVL) tree returns a structurally equal tree — equal contents and shape, the
very same tree only when the value sits at the root — and
`insert (insert t v) v` has the same membership set as `insert t v`; but
the repeated call does reallocate the search path, so it is not
allocation-free. -/
theorem C5_amended :
    (∀ t v, BST t → Avl t → memb t v = true → insert t v = t) ∧
    (∀ t v y, memb (insert (insert t v) v) y = memb (insert t v) y) := by
  constructor
  · exact fun t v hB hA hm => insert_self_of_mem t hB hA v hm
  · intro t v y
    rw [memb_insert (insert t v) v y, memb_insert t v y]
    simp [Bool.or_assoc]

/-- Witness for the amended C5 at the tree with root 2 and left child 1 and
the duplicate value 1. -/
theorem C5_amended_witness :
    BST (.node 2 (.node 1 .empty .empty) .empty) ∧
    Avl (.node 2 (.node 1 .empty .empty) .empty) ∧
    memb (.node 2 (.node 1 .empty .empty) .empty) 1 = true ∧
    insert (.node 2 (.node 1 .empty .empty) .empty) 1 =
      .node 2 (.node 1 .empty .empty) .empty := by
  have hB : BST (.node 2 (.node 1 .empty .empty) .empty) := by
    simp [BST, ForallT]
  have hA : Avl (.node 2 (.node 1 .empty .empty) .empty) := by
    simp [Avl, height]
  exact ⟨hB, hA, rfl,
    C5_amended.1 (.node 2 (.node 1 .empty .empty) .empty) 1 hB hA rfl⟩

/-- C6: inserting 5, 3, 8, 1, 4, 7, 9 in that order into the empty tree
yields a tree containing exactly 1, 3, 4, 5, 7, 8, 9 (and not 0, 2, 6, 10)
of height 3; after removing 5 the value 5 is gone while the other six
values remain. -/
theorem C6_scenario :
    contains (applyOps .empty [Op.ins 5, Op.ins 3, Op.ins 8, Op.ins 1,
      Op.ins 4, Op.ins 7, Op.ins 9]) 1 = true ∧
    contains (applyOps .empty [Op.ins 5, Op.ins 3, Op.ins 8, Op.ins 1,
      Op.ins 4, Op.ins 7, Op.ins 9]) 3 = true ∧
    contains (applyOps .empty [Op.ins 5, Op.ins 3, Op.ins 8, Op.ins 1,
      Op.ins 4, Op.ins 7, Op.ins 9]) 4 = true ∧
    contains (applyOps .empty [Op.ins 5, Op.ins 3, Op.ins 8, Op.ins 1,
      Op.ins 4, Op.ins 7, Op.ins 9]) 5 = true ∧
    contains (applyOps .empty [Op.ins 5, Op.ins 3, Op.ins 8, Op.ins 1,
      Op.ins 4, Op.ins 7, Op.ins 9]) 7 = true ∧
    contains (applyOps .empty [Op.ins 5, Op.ins 3, Op.ins 8, Op.ins 1,
      Op.ins 4, Op.ins 7, Op.ins 9]) 8 = true ∧
    contains (applyOps .empty [Op.ins 5, Op.ins 3, Op.ins 8, Op.ins 1,
      Op.ins 4, Op.ins 7, Op.ins 9]) 9 = true ∧
    contains (applyOps .empty [Op.ins 5, Op.ins 3, Op.ins 8, Op.ins 1,
      Op.ins 4, Op.ins 7, Op.ins 9]) 0 = false ∧
    contains (applyOps .empty [Op.ins 5, Op.ins 3, Op.ins 8, Op.ins 1,
      Op.ins 4, Op.ins 7, Op.ins 9]) 2 = false ∧
    contains (applyOps .empty [Op.ins 5, Op.ins 3, Op.ins 8, Op.ins 1,
      Op.ins 4, Op.ins 7, Op.ins 9]) 6 = false ∧
    contains (applyOps .empty [Op.ins 5, Op.ins 3, Op.ins 8, Op.ins 1,
      Op.ins 4, Op.ins 7, Op.ins 9]) 10 = false ∧
    height (applyOps .empty [Op.ins 5, Op.ins 3, Op.ins 8, Op.ins 1,
      Op.ins 4, Op.ins 7, Op.ins 9]) = 3 ∧
    contains (applyOps .empty [Op.ins 5, Op.ins 3, Op.ins 8, Op.ins 1,
      Op.ins 4, Op.ins 7, Op.ins 9, Op.del 5]) 5 = false ∧
    contains (applyOps .empty [Op.ins 5, Op.ins 3, Op.ins 8, Op.ins 1,
      Op.ins 4, Op.ins 7, Op.ins 9, Op.del 5]) 1 = true ∧
    contains (applyOps .empty [Op.ins 5, Op.ins 3, Op.ins 8, Op.ins 1,
      Op.ins 4, Op.ins 7, Op.ins 9, Op.del 5]) 3 = true ∧
    contains (applyOps .empty [Op.ins 5, Op.ins 3, Op.ins 8, Op.ins 1,
      Op.ins 4, Op.ins 7, Op.ins 9, Op.del 5]) 4 = true ∧
    contains (applyOps .empty [Op.ins 5, Op.ins 3, Op.ins 8, Op.ins 1,
      Op.ins 4, Op.ins 7, Op.ins 9, Op.del 5]) 7 = true ∧
    contains (applyOps .empty [Op.ins 5, Op.ins 3, Op.ins 8, Op.ins 1,
      Op.ins 4, Op.ins 7, Op.ins 9, Op.del 5]) 8 = true ∧
    contains (applyOps .empty [Op.ins 5, Op.ins 3, Op.ins 8, Op.ins 1,
      Op.ins 4, Op.ins 7, Op.ins 9, Op.del 5]) 9 = true := by
  decide

/-- C7: inserting 1, 2, 3 in that order into the empty tree performs
exactly one rotation in total (in the third insertion) and produces the
tree with 2 at the root, leaf 1 on the left, leaf 3 on the right, of
height 2 and root balance factor 0. -/
theorem C7_rotation_scenario :
    (insertC .empty 1).2.2 + (insertC (insertC .empty 1).1 2).2.2 +
      (insertC (insertC (insertC .empty 1).1 2).1 3).2.2 = 1 ∧
    (insertC (insertC (insertC .empty 1).1 2).1 3).1 =
      .node 2 (.node 1 .empty .empty) (.node 3 .empty .empty) ∧
    height (insertC (insertC (insertC .empty 1).1 2).1 3).1 = 2 ∧
    bf (insertC (insertC (insertC .empty 1).1 2).1 3).1 = 0 := by
  decide

/-- C8: `rot_left` on an inner node whose right child is an inner node
produces a new node holding the right child's value, with a new left child
combining the old value, old left child and old right child's left subtree,
and with the old right child's right subtree on the right; it preserves the
in-order value sequence, and symmetrically for `rot_right` on a node with
an inner left child. -/
theorem C8_rotations (v rv lv : Int) (l rl rr ll lr r : Tree) :
    rot_left (.node v l (.node rv rl rr)) = .node rv (.node v l rl) rr ∧
    inorder (rot_left (.node v l (.node rv rl rr))) =
      inorder (.node v l (.node rv rl rr)) ∧
    rot_right (.node v (.node lv ll lr) r) = .node lv ll (.node v lr r) ∧
    inorder (rot_right (.node v (.node lv ll lr) r)) =
      inorder (.node v (.node lv ll lr) r) := by
  refine ⟨rfl, ?_, rfl, ?_⟩
  · simp [rot_left, inorder, List.append_assoc]
  · simp [rot_right, inorder, List.append_assoc]

/-- C9: asking for the value of the empty tree faults (modelled by `none`,
no sentinel value is produced), `rightmost` on the empty tree faults,
whereas `contains`, `insert` and `remove` never fault: `remove` always
completes (its internal `rightmost` precondition never fires, stated via
the fault-propagating `removeE`), searching an absent value returns false,
inserting a duplicate returns an unchanged (structurally equal, valid
trees) tree, and removing an absent value returns an unchanged tree. -/
theorem C9_error_handling :
    value Tree.empty = none ∧
    rightmost Tree.empty = none ∧
    (∀ t val, removeE t val = some (remove t val)) ∧
    (∀ t val, memb t val = false → contains t val = false) ∧
    (∀ t val, BST t → Avl t → memb t val = true → insert t val = t) ∧
    (∀ t val, Avl t → memb t val = false → remove t val = t) := by
  refine ⟨rfl, rfl, removeE_eq, ?_, ?_, ?_⟩
  · intro t val hm
    cases hc : contains t val
    · rfl
    · rw [contains_imp_memb t val hc] at hm
      exact absurd hm (by simp)
  · exact fun t val hB hA hm => insert_self_of_mem t hB hA val hm
  · exact fun t val hA hm => remove_self_of_not_mem t hA val hm

/-- Witness for C9 at concrete singleton trees. -/
theorem C9_witness :
    removeE (.node 1 .empty .empty) 1 =
      some (remove (.node 1 .empty .empty) 1) ∧
    (memb (.node 1 .empty .empty) 2 = false ∧
     contains (.node 1 .empty .empty) 2 = false) ∧
    (memb (.node 1 .empty .empty) 1 = true ∧
     insert (.node 1 .empty .empty) 1 = .node 1 .empty .empty) ∧
    remove (.node 1 .empty .empty) 2 = .node 1 .empty .empty := by
  have hB : BST (.node 1 .empty .empty) := by simp [BST, ForallT]
  have hA : Avl (.node 1 .empty .empty) := by simp [Avl, height]
  exact ⟨C9_error_handling.2.2.1 _ 1,
    ⟨rfl, C9_error_handling.2.2.2.1 _ 2 rfl⟩,
    ⟨rfl, C9_error_handling.2.2.2.2.1 _ 1 hB hA rfl⟩,
    C9_error_handling.2.2.2.2.2 _ 2 hA rfl⟩

/-- C10: on a tree satisfying the BST and AVL balance invariants (height
consistency is definitional in this embedding, where `height` is computed
by the constructor rule the source caches), inserting a value changes the
height by 0 or +1, and removing a value changes the height by 0 or -1. -/
theorem C10_height_change (t : Tree) (val : Int) (_hB : BST t) (hA : Avl t) :
    (height (insert t val) = height t ∨
     height (insert t val) = height t + 1) ∧
    (height (remove t val) = height t ∨
     height (remove t val) + 1 = height t) := by
  obtain ⟨_, h1⟩ := avl_insert val t hA
  obtain ⟨_, h2⟩ := avl_remove t hA val
  exact ⟨h1, by omega⟩

/-- Witness for C10 at the singleton tree holding 5 and the value 3. -/
theorem C10_witness :
    BST (.node 5 .empty .empty) ∧ Avl (.node 5 .empty .empty) ∧
    ((height (insert (.node 5 .empty .empty) 3) =
        height (.node 5 .empty .empty) ∨
      height (insert (.node 5 .empty .empty) 3) =
        height (.node 5 .empty .empty) + 1) ∧
     (height (remove (.node 5 .empty .empty) 3) =
        height (.node 5 .empty .empty) ∨
      height (remove (.node 5 .empty .empty) 3) + 1 =
        height (.node 5 .empty .empty))) := by
  have hB : BST (.node 5 .empty .empty) := by simp [BST, ForallT]
  have hA : Avl (.node 5 .empty .empty) := by simp [Avl, height]
  exact ⟨hB, hA, C10_height_change (.node 5 .empty .empty) 3 hB hA⟩

end ST
